import Mathlib

/-!
Verification of the Connect Four engine in
`src/app/connect-four/ConnectFour.ts` (class `ConnectFour`).

The board is a 7 × 6 grid of optional colors; the engine provides a pure
transition function `placePiece`, win detection `checkWinner`, a fullness
test `isBoardFull`, and a move selector `getComputerMove` with three
quality levels, the best of which runs a depth-5 minimax search with
alpha-beta pruning over an integer heuristic evaluation.

Conventions of the embedding:
* `Board` is a function `Fin 7 → Fin 6 → Option Color`, mirroring the
  TypeScript array-of-columns indexed `board[column][row]`; the engine
  only ever receives structurally valid 7×6 boards (zod-parsed), so the
  function representation is faithful.
* JavaScript numbers used by the search are only ever compared, maxed and
  minned, with `±Infinity` as sentinels; they are embedded as
  `WithBot (WithTop ℤ)` (`⊥` = `-Infinity`, `⊤` = `Infinity`).
* `Math.random()` is embedded as an explicit natural-number seed `rand`;
  `Math.floor(Math.random() * n)` becomes `rand % n`.
* A thrown `Error` becomes `Except.error` of its message; the possibly
  `undefined` result of `getBestMove` becomes an `Option`.
-/

namespace ConnectFour

inductive Color where
  | red
  | yellow
deriving DecidableEq, Repr

/-- `red ↔ yellow`, the TypeScript idiom
`state.currentPlayer === "red" ? "yellow" : "red"`. -/
def other : Color → Color
  | .red => .yellow
  | .yellow => .red

/-- A cell is `null` (empty) or holds a piece of one color. -/
abbrev Cell := Option Color

/-- `board[column][row]`: 7 columns of 6 cells.  Row index 0 is rendered at
the top of a column; gravity fills rows 5, 4, …, 0 in that order. -/
abbrev Board := Fin 7 → Fin 6 → Cell

instance : DecidableEq Board := fun _ _ => Fintype.decidablePiFintype _ _

structure GameState where
  board : Board
  currentPlayer : Color
  winner : Option Color
  isGameOver : Bool

instance : DecidableEq GameState := fun s t => by
  cases s; cases t
  exact decidable_of_iff _ (Iff.of_eq (GameState.mk.injEq _ _ _ _ _ _ _ _)).symm

/-- `createBoard()`: all 42 cells `null`. -/
def createBoard : Board := fun _ _ => none

/-- `createInitialState()`. -/
def createInitialState : GameState :=
  { board := createBoard
    currentPlayer := .red
    winner := none
    isGameOver := false }

/-- Functional update of a single cell (the TypeScript code copies the
board and assigns `newBoard[coordinate][row]`). -/
def updateBoard (b : Board) (c : Fin 7) (r : Fin 6) (v : Cell) : Board :=
  fun c' r' => if c' = c ∧ r' = r then v else b c' r'

/-- The out-of-bounds-tolerant lookup `board[cc]?.[rr]`: `none` stands for
both an empty in-bounds cell and `undefined` from an out-of-range access
(the TypeScript code only ever compares the result against a color). -/
def cellAt (b : Board) (c r : Int) : Cell :=
  if h : 0 ≤ c ∧ c < 7 ∧ 0 ≤ r ∧ r < 6 then
    b ⟨c.toNat, by omega⟩ ⟨r.toNat, by omega⟩
  else none

/-- The four scan directions `(dc, dr)` of `checkWinner` and of the
evaluator: horizontal, vertical, and the two diagonals. -/
def dirs : List (Int × Int) := [(1, 0), (0, 1), (1, 1), (1, -1)]

/-- The while-loop of `checkWinner`, counting down the number of further
consecutive `player` cells still needed: `runReaches b p cc rr dc dr n`
is true iff the `n` cells starting at `(cc, rr)` and stepping by
`(dc, dr)` are all in bounds and hold `player`'s color. -/
def runReaches (b : Board) (p : Color) (dc dr : Int) : Int → Int → Nat → Bool
  | _, _, 0 => true
  | cc, rr, n + 1 =>
    decide (cellAt b cc rr = some p) && runReaches b p dc dr (cc + dc) (rr + dr) n

/-- `checkWinner(board, player)`: scan every cell; from each cell of the
player's color walk each direction and succeed once 4 consecutive cells
(the cell plus 3 more) are found. -/
def checkWinner (b : Board) (p : Color) : Bool :=
  (List.finRange 7).any fun c =>
    (List.finRange 6).any fun r =>
      decide (b c r = some p) &&
      dirs.any fun d =>
        runReaches b p d.1 d.2 ((c : Int) + d.1) ((r : Int) + d.2) 3

/-- `isBoardFull(board)`: every cell of every column is non-null. -/
def isBoardFull (b : Board) : Bool :=
  (List.finRange 7).all fun c => (List.finRange 6).all fun r => (b c r).isSome

/-- The row-scan of `placePiece`: `for (let row = 5; row >= 0; row--)`,
returning the first row (largest index) whose cell is `null`. -/
def lowestEmptyRow (b : Board) (c : Fin 7) : Option (Fin 6) :=
  (List.finRange 6).reverse.find? fun r => (b c r).isNone

/-- `placePiece(state, coordinate)`: drop the current player's piece into
the column (at the largest-index empty row), recompute winner and
game-over, toggle the player; a full column returns the state unchanged. -/
def placePiece (s : GameState) (c : Fin 7) : GameState :=
  match lowestEmptyRow s.board c with
  | some r =>
    let newBoard := updateBoard s.board c r (some s.currentPlayer)
    let winner : Option Color :=
      if checkWinner newBoard s.currentPlayer then some s.currentPlayer else none
    { board := newBoard
      currentPlayer := other s.currentPlayer
      winner := winner
      isGameOver := winner.isSome || isBoardFull newBoard }
  | none => s

/-! ### Move selection -/

inductive Quality where
  | bad
  | medium
  | best
deriving DecidableEq, Repr

/-- Scores manipulated by the search: JavaScript numbers including the
sentinels `-Infinity` (`⊥`) and `Infinity` (`⊤`). -/
abbrev Score := WithBot (WithTop ℤ)

/-- An actual (finite) evaluation embedded into `Score`. -/
def Score.ofInt (n : ℤ) : Score := ((n : WithTop ℤ) : Score)

/-- `getValidColumns(board)`: ascending list of columns whose row-0 cell
(the last one gravity fills) is still `null`. -/
def getValidColumns (b : Board) : List (Fin 7) :=
  (List.finRange 7).filter fun c => (b c 0).isNone

/-- `getRandomColumn(validColumns)`: throws when no column is valid, else
picks index `Math.floor(Math.random() * length)`, embedded as
`rand % length`. -/
def getRandomColumn (validColumns : List (Fin 7)) (rand : Nat) :
    Except String (Fin 7) :=
  if h : validColumns = [] then .error "No valid columns available"
  else
    .ok (validColumns.get ⟨rand % validColumns.length, Nat.mod_lt _ (by
      cases validColumns with
      | nil => exact absurd rfl h
      | cons a l => exact Nat.succ_pos _)⟩)

/-- `Math.abs(center - a)` for `center = Math.floor(7 / 2) = 3`. -/
def centerDistance (c : Fin 7) : Nat := (3 - (c : Int)).natAbs

/-- The move ordering `validColumns.sort((a, b) => |3-a| - |3-b|)`:
JavaScript's sort is stable, so this is a stable sort by distance from
the center column. -/
def orderColumns (l : List (Fin 7)) : List (Fin 7) :=
  l.mergeSort fun a b => centerDistance a ≤ centerDistance b

/-- `evaluateWindow(windowCells, playerColor, opponentColor)`. -/
def evaluateWindow (w : List Cell) (p o : Color) : ℤ :=
  let playerCount := w.count (some p)
  let opponentCount := w.count (some o)
  let emptyCount := w.count none
  (if playerCount = 4 then (100000 : ℤ)
   else if playerCount = 3 ∧ emptyCount = 1 then 100
   else if playerCount = 2 ∧ emptyCount = 2 then 10
   else 0) +
  (if opponentCount = 4 then (-100000 : ℤ)
   else if opponentCount = 3 ∧ emptyCount = 1 then -1000
   else if opponentCount = 2 ∧ emptyCount = 2 then -10
   else 0)

/-- The window collection of `scoreDirection`: for a start `(c, r)` and
step `(dc, dr)`, the in-bounds cells among the 4 positions
`(c + i·dc, r + i·dr)` (out-of-range positions are skipped, not padded). -/
def windowCells (b : Board) (c r : Nat) (dc dr : Int) : List Cell :=
  (List.range 4).filterMap fun (i : Nat) =>
    if 0 ≤ (c : Int) + (i : Int) * dc ∧ (c : Int) + (i : Int) * dc < 7 ∧
        0 ≤ (r : Int) + (i : Int) * dr ∧ (r : Int) + (i : Int) * dr < 6 then
      some (cellAt b ((c : Int) + (i : Int) * dc) ((r : Int) + (i : Int) * dr))
    else none

/-- `scoreDirection(board, playerColor, opponentColor, dc, dr)`: slide the
4-window over every start cell and score the complete (length 4) ones. -/
def scoreDirection (b : Board) (p o : Color) (dc dr : Int) : ℤ :=
  (((List.range 7).map fun c =>
    (((List.range 6).map fun r =>
      let w := windowCells b c r dc dr
      if w.length = 4 then evaluateWindow w p o else 0)).sum)).sum

/-- `evaluateBoard(board, playerColor, opponentColor)`: center-column
bonus of 6 per own piece plus the window scores of the 4 directions. -/
def evaluateBoard (b : Board) (p o : Color) : ℤ :=
  let centerCount := ((List.finRange 6).filter fun r => b 3 r = some p).length
  (centerCount : ℤ) * 6 +
    scoreDirection b p o 1 0 + scoreDirection b p o 0 1 +
    scoreDirection b p o 1 1 + scoreDirection b p o 1 (-1)

/-- The maximizing loop of `minimax` with its beta cut-off: `f` is the
recursive search at one less depth, `v` the running `maxEval`. -/
def abMaxLoop (f : Score → Score → GameState → Score) (s : GameState) :
    List (Fin 7) → Score → Score → Score → Score
  | [], v, _, _ => v
  | c :: cs, v, α, β =>
    let e := f α β (placePiece s c)
    let v' := max v e
    let α' := max α e
    if β ≤ α' then v' else abMaxLoop f s cs v' α' β

/-- The minimizing loop of `minimax` with its alpha cut-off. -/
def abMinLoop (f : Score → Score → GameState → Score) (s : GameState) :
    List (Fin 7) → Score → Score → Score → Score
  | [], v, _, _ => v
  | c :: cs, v, α, β =>
    let e := f α β (placePiece s c)
    let v' := min v e
    let β' := min β e
    if β' ≤ α then v' else abMinLoop f s cs v' α β'

/-- `minimax(state, depth, alpha, beta, isMaximizing, playerColor,
opponentColor)`. -/
def minimax : Nat → GameState → Score → Score → Bool → Color → Color → Score
  | 0, s, _, _, _, p, o => Score.ofInt (evaluateBoard s.board p o)
  | d + 1, s, α, β, isMaximizing, p, o =>
    if s.isGameOver then Score.ofInt (evaluateBoard s.board p o)
    else
      let orderedColumns := orderColumns (getValidColumns s.board)
      if isMaximizing then
        abMaxLoop (fun α' β' s' => minimax d s' α' β' false p o) s
          orderedColumns ⊥ α β
      else
        abMinLoop (fun α' β' s' => minimax d s' α' β' true p o) s
          orderedColumns ⊤ α β

/-- `getBestMove(state)`: depth-5 alpha-beta search; `bestColumn` starts
as `validColumns[0]` (read before the in-place sort) and is `undefined`
(`none`) when there is no valid column; each root child gets the full
window, and a strictly greater score replaces the incumbent. -/
def getBestMove (s : GameState) : Option (Fin 7) :=
  let opponentColor := other s.currentPlayer
  let validColumns := getValidColumns s.board
  let orderedColumns := orderColumns validColumns
  (orderedColumns.foldl
    (fun (acc : Score × Option (Fin 7)) col =>
      let score :=
        minimax 5 (placePiece s col) ⊥ ⊤ false s.currentPlayer opponentColor
      if acc.1 < score then (score, some col) else acc)
    (⊥, validColumns.head?)).2

/-- `getComputerMove(state, quality)`: the outer `Except` is a thrown
`Error`; the inner `Option` is `getBestMove`'s possibly-`undefined`
result (the other qualities always produce a column when they return). -/
def getComputerMove (s : GameState) (quality : Quality) (rand : Nat) :
    Except String (Option (Fin 7)) :=
  let validColumns := getValidColumns s.board
  match quality with
  | .bad => (getRandomColumn validColumns rand).map some
  | .medium =>
    match validColumns.find?
        (fun col => (placePiece s col).winner = some s.currentPlayer) with
    | some col => .ok (some col)
    | none =>
      let opponentColor := other s.currentPlayer
      match validColumns.find? (fun col =>
          (placePiece { s with currentPlayer := opponentColor } col).winner
            = some opponentColor) with
      | some col => .ok (some col)
      | none => (getRandomColumn validColumns rand).map some
  | .best => .ok (getBestMove s)

/-! ### Basic lemmas about the board scan -/

theorem lowestEmptyRow_eq_none_iff (b : Board) (c : Fin 7) :
    lowestEmptyRow b c = none ↔ ∀ r, b c r ≠ none := by
  unfold lowestEmptyRow
  rw [List.find?_eq_none]
  constructor
  · intro h r hr
    have := h r (by simp)
    simp [hr] at this
  · intro h r _
    simpa [Option.isNone_iff_eq_none] using h r

/-- `find?` over a strictly descending list returns a maximal satisfying
element: everything in the list above it fails the predicate. -/
theorem find?_desc_max {l : List (Fin 6)} (hl : l.Pairwise (· > ·))
    {p : Fin 6 → Bool} {r : Fin 6} (h : l.find? p = some r) :
    p r = true ∧ ∀ r' ∈ l, r < r' → p r' = false := by
  induction l with
  | nil => simp at h
  | cons a t ih =>
    rw [List.find?_cons] at h
    rcases ha : p a with _ | _
    · rw [ha] at h
      obtain ⟨hpr, hrest⟩ := ih (List.Pairwise.of_cons hl) h
      refine ⟨hpr, ?_⟩
      intro r' hr' hlt
      rcases List.mem_cons.mp hr' with rfl | hmem
      · exact ha
      · exact hrest r' hmem hlt
    · rw [ha] at h
      simp only [Option.some.injEq] at h
      subst h
      refine ⟨ha, ?_⟩
      intro r' hr' hlt
      rcases List.mem_cons.mp hr' with rfl | hmem
      · omega
      · have := (List.pairwise_cons.mp hl).1 r' hmem
        omega

theorem lowestEmptyRow_spec {b : Board} {c : Fin 7} {r : Fin 6}
    (h : lowestEmptyRow b c = some r) :
    b c r = none ∧ ∀ r', r < r' → b c r' ≠ none := by
  obtain ⟨h1, h2⟩ := find?_desc_max (l := (List.finRange 6).reverse)
    (by decide) h
  refine ⟨by simpa [Option.isNone_iff_eq_none] using h1, ?_⟩
  intro r' hlt hnone
  have := h2 r' (by simp) hlt
  simp [hnone] at this

theorem placePiece_of_full {s : GameState} {c : Fin 7}
    (h : ∀ r, s.board c r ≠ none) : placePiece s c = s := by
  have : lowestEmptyRow s.board c = none :=
    (lowestEmptyRow_eq_none_iff s.board c).mpr h
  unfold placePiece
  rw [this]

theorem placePiece_eq {s : GameState} {c : Fin 7} {r : Fin 6}
    (h : lowestEmptyRow s.board c = some r) :
    placePiece s c =
      { board := updateBoard s.board c r (some s.currentPlayer)
        currentPlayer := other s.currentPlayer
        winner :=
          if checkWinner (updateBoard s.board c r (some s.currentPlayer))
              s.currentPlayer then some s.currentPlayer else none
        isGameOver :=
          (if checkWinner (updateBoard s.board c r (some s.currentPlayer))
              s.currentPlayer then
            some s.currentPlayer else none).isSome ||
          isBoardFull (updateBoard s.board c r (some s.currentPlayer)) } := by
  unfold placePiece
  rw [h]

theorem placePiece_board {s : GameState} {c : Fin 7} {r : Fin 6}
    (h : lowestEmptyRow s.board c = some r) :
    (placePiece s c).board = updateBoard s.board c r (some s.currentPlayer)
      ∧ (placePiece s c).currentPlayer = other s.currentPlayer := by
  rw [placePiece_eq h]
  exact ⟨rfl, rfl⟩

/-! ### C1: what `placePiece` changes -/

/-- **C1** (amended).  If column `c` has an empty cell, `placePiece`
changes exactly one cell: the empty cell of column `c` with the greatest
row index (the lowest cell of the column, since gravity fills rows
5, 4, …, 0), which receives the current player's color; every other cell
is unchanged.  If the column is full the input state is returned
unchanged. -/
theorem claim_C1_placePiece_lowest_cell (s : GameState) (c : Fin 7) :
    ((∃ r, s.board c r = none) →
      ∃ r, s.board c r = none ∧ (∀ r', r < r' → s.board c r' ≠ none) ∧
        (placePiece s c).board c r = some s.currentPlayer ∧
        ∀ c' r', ¬(c' = c ∧ r' = r) →
          (placePiece s c).board c' r' = s.board c' r') ∧
    ((∀ r, s.board c r ≠ none) → placePiece s c = s) := by
  constructor
  · intro ⟨r₀, hr₀⟩
    rcases hrow : lowestEmptyRow s.board c with _ | r
    · exact absurd hr₀ ((lowestEmptyRow_eq_none_iff s.board c).mp hrow r₀)
    · obtain ⟨hempty, hmax⟩ := lowestEmptyRow_spec hrow
      obtain ⟨hboard, _⟩ := placePiece_board hrow
      refine ⟨r, hempty, hmax, ?_, ?_⟩
      · rw [hboard]; simp [updateBoard]
      · intro c' r' hne
        rw [hboard]
        simp only [updateBoard, if_neg hne]
  · exact placePiece_of_full

theorem claim_C1_witness :
    ∃ r, createInitialState.board 0 r = none ∧
      (∀ r', r < r' → createInitialState.board 0 r' ≠ none) ∧
      (placePiece createInitialState 0).board 0 r
        = some createInitialState.currentPlayer ∧
      ∀ c' r', ¬(c' = 0 ∧ r' = r) →
        (placePiece createInitialState 0).board c' r'
          = createInitialState.board c' r' :=
  (claim_C1_placePiece_lowest_cell createInitialState 0).1 ⟨5, rfl⟩

/-- **C1** is false as stated: with the spec's labelling "row 0 =
bottom", the lowest empty cell of the empty column 0 would be `(0, 0)`,
but placing on the initial board leaves `(0, 0)` empty and fills
`(0, 5)` — the code's gravity fills the greatest row index first. -/
theorem claim_C1_counterexample :
    createInitialState.board 0 0 = none ∧
    (placePiece createInitialState 0).board 0 0 = none ∧
    (placePiece createInitialState 0).board 0 5 = some Color.red := by
  decide

/-! ### C8: the current player after the game is over -/

/-- A finished game reached by legal play: red drops in column 0 four
times, yellow answers in columns 1, 2, 3.  Red wins; `isGameOver`. -/
def wonState : GameState :=
  placePiece (placePiece (placePiece (placePiece (placePiece (placePiece
    (placePiece createInitialState 0) 1) 0) 2) 0) 3) 0

/-- **C8** is false as stated: `placePiece` never looks at `isGameOver`;
placing into a non-full column of a finished game still toggles
`currentPlayer`. -/
theorem claim_C8_counterexample :
    wonState.isGameOver = true ∧ wonState.currentPlayer = Color.yellow ∧
    (placePiece wonState 5).currentPlayer = Color.red := by
  decide

/-- **C8** (amended).  Even when `isGameOver` is true, `placePiece`
toggles `currentPlayer` whenever the column has an empty cell; the
player is preserved only by the full-column no-op. -/
theorem claim_C8_player_toggles (s : GameState) (c : Fin 7)
    (_hover : s.isGameOver = true) :
    ((∃ r, s.board c r = none) →
      (placePiece s c).currentPlayer = other s.currentPlayer) ∧
    ((∀ r, s.board c r ≠ none) →
      (placePiece s c).currentPlayer = s.currentPlayer) := by
  constructor
  · intro ⟨r₀, hr₀⟩
    rcases hrow : lowestEmptyRow s.board c with _ | r
    · exact absurd hr₀ ((lowestEmptyRow_eq_none_iff s.board c).mp hrow r₀)
    · exact (placePiece_board hrow).2
  · intro h
    rw [placePiece_of_full h]

theorem claim_C8_witness :
    wonState.isGameOver = true ∧
    (placePiece wonState 5).currentPlayer = other wonState.currentPlayer :=
  ⟨by decide,
    (claim_C8_player_toggles wonState 5 (by decide)).1 ⟨0, by decide⟩⟩

/-! ### C3: `checkWinner` detects exactly the four-in-a-rows -/

/-- Four consecutive cells of `p`'s color along one of the four axis
directions, anywhere on the board (`cellAt` forces the cells in
bounds). -/
def hasFourInARow (b : Board) (p : Color) : Prop :=
  ∃ d ∈ dirs, ∃ c r : Int,
    ∀ i : Fin 4, cellAt b (c + d.1 * i) (r + d.2 * i) = some p

theorem cellAt_fin (b : Board) (c : Fin 7) (r : Fin 6) :
    cellAt b (c : Int) (r : Int) = b c r := by
  have hc : (0 : Int) ≤ c ∧ (c : Int) < 7 := by
    constructor <;> [positivity; exact_mod_cast c.isLt]
  have hr : (0 : Int) ≤ r ∧ (r : Int) < 6 := by
    constructor <;> [positivity; exact_mod_cast r.isLt]
  rw [cellAt, dif_pos ⟨hc.1, hc.2, hr.1, hr.2⟩]
  congr 1 <;> apply Fin.ext <;> simp

theorem cellAt_eq_some {b : Board} {p : Color} {c r : Int}
    (h : cellAt b c r = some p) :
    0 ≤ c ∧ c < 7 ∧ 0 ≤ r ∧ r < 6 := by
  by_contra hcon
  rw [cellAt, dif_neg hcon] at h
  exact Option.noConfusion h

theorem checkWinner_iff (b : Board) (p : Color) :
    checkWinner b p = true ↔ hasFourInARow b p := by
  constructor
  · intro h
    obtain ⟨c, -, h⟩ := List.any_eq_true.mp h
    obtain ⟨r, -, h⟩ := List.any_eq_true.mp h
    rw [Bool.and_eq_true] at h
    obtain ⟨hcell, h⟩ := h
    obtain ⟨d, hd, hrun⟩ := List.any_eq_true.mp h
    refine ⟨d, hd, (c : Int), (r : Int), ?_⟩
    simp only [runReaches, Bool.and_eq_true, decide_eq_true_eq] at hrun
    obtain ⟨h1, h2, h3, -⟩ := hrun
    intro i
    fin_cases i
    · simpa [cellAt_fin] using of_decide_eq_true hcell
    · simpa [mul_comm] using h1
    · have : (c : Int) + d.1 * 2 = c + d.1 + d.2 * 0 + d.1 ∧
          (r : Int) + d.2 * 2 = r + d.2 + d.2 := by constructor <;> ring
      simpa [show (c : Int) + d.1 * 2 = c + d.1 + d.1 by ring,
        show (r : Int) + d.2 * 2 = r + d.2 + d.2 by ring] using h2
    · simpa [show (c : Int) + d.1 * 3 = c + d.1 + d.1 + d.1 by ring,
        show (r : Int) + d.2 * 3 = r + d.2 + d.2 + d.2 by ring] using h3
  · rintro ⟨d, hd, c, r, hcells⟩
    have h0 := hcells 0
    simp only [Fin.val_zero, Int.ofNat_zero, mul_zero, add_zero] at h0
    obtain ⟨hc0, hc7, hr0, hr6⟩ := cellAt_eq_some h0
    refine List.any_eq_true.mpr ⟨⟨c.toNat, by omega⟩, List.mem_finRange _, ?_⟩
    refine List.any_eq_true.mpr ⟨⟨r.toNat, by omega⟩, List.mem_finRange _, ?_⟩
    have hcc : ((⟨c.toNat, by omega⟩ : Fin 7) : Int) = c := by simp; omega
    have hrr : ((⟨r.toNat, by omega⟩ : Fin 6) : Int) = r := by simp; omega
    rw [Bool.and_eq_true]
    refine ⟨?_, ?_⟩
    · refine decide_eq_true ?_
      have hfin := cellAt_fin b ⟨c.toNat, by omega⟩ ⟨r.toNat, by omega⟩
      rw [← hfin, hcc, hrr]
      exact h0
    · refine List.any_eq_true.mpr ⟨d, hd, ?_⟩
      simp only [runReaches, Bool.and_eq_true, decide_eq_true_eq]
      rw [hcc, hrr]
      have h1 := hcells 1
      have h2 := hcells 2
      have h3 := hcells 3
      simp only [show (((1 : Fin 4) : ℕ) : ℤ) = 1 from rfl,
        show (((2 : Fin 4) : ℕ) : ℤ) = 2 from rfl,
        show (((3 : Fin 4) : ℕ) : ℤ) = 3 from rfl, mul_one] at h1 h2 h3
      rw [show c + d.1 * 2 = c + d.1 + d.1 by ring,
          show r + d.2 * 2 = r + d.2 + d.2 by ring] at h2
      rw [show c + d.1 * 3 = c + d.1 + d.1 + d.1 by ring,
          show r + d.2 * 3 = r + d.2 + d.2 + d.2 by ring] at h3
      exact ⟨h1, h2, h3, trivial⟩

/-- **C3**.  `checkWinner(board, player)` is true iff four consecutive
cells of the player's color exist along one of the four axis directions;
in particular it is false on the empty board. -/
theorem claim_C3_checkWinner_iff :
    (∀ b p, checkWinner b p = true ↔ hasFourInARow b p) ∧
    (∀ p, checkWinner createBoard p = false) :=
  ⟨checkWinner_iff, by intro p; cases p <;> decide⟩

/-! ### C2: the data-model invariant along legal play -/

theorem other_ne (p : Color) : other p ≠ p := by cases p <;> simp [other]

theorem other_other (p : Color) : other (other p) = p := by
  cases p <;> rfl

theorem cellAt_update (b : Board) (c : Fin 7) (r : Fin 6) (v : Cell)
    (x y : Int) :
    cellAt (updateBoard b c r v) x y =
      if x = (c : Int) ∧ y = (r : Int) then v else cellAt b x y := by
  by_cases hxy : x = (c : Int) ∧ y = (r : Int)
  · obtain ⟨hx, hy⟩ := hxy
    subst hx; subst hy
    rw [if_pos ⟨rfl, rfl⟩]
    have hb : (0 : Int) ≤ (c : Int) ∧ (c : Int) < 7 ∧
        (0 : Int) ≤ (r : Int) ∧ (r : Int) < 6 := by
      refine ⟨by positivity, by exact_mod_cast c.isLt,
        by positivity, by exact_mod_cast r.isLt⟩
    rw [cellAt, dif_pos hb]
    show (if _ ∧ _ then v else _) = v
    rw [if_pos]
    constructor <;> apply Fin.ext <;> simp
  · rw [if_neg hxy]
    unfold cellAt updateBoard
    by_cases h : 0 ≤ x ∧ x < 7 ∧ 0 ≤ y ∧ y < 6
    · rw [dif_pos h, dif_pos h, if_neg]
      intro ⟨h1, h2⟩
      rw [Fin.ext_iff] at h1 h2
      exact hxy ⟨by simp at h1 ⊢; omega, by simp at h2 ⊢; omega⟩
    · rw [dif_neg h, dif_neg h]

/-- A new four-in-a-row on a board with one added piece of color `v` can
only belong to `v`: for any other color it must already be present. -/
theorem hasFour_update {b : Board} {c : Fin 7} {r : Fin 6} {v p : Color}
    (hp : p ≠ v) (h : hasFourInARow (updateBoard b c r (some v)) p) :
    hasFourInARow b p := by
  obtain ⟨d, hd, x, y, hcells⟩ := h
  refine ⟨d, hd, x, y, fun i => ?_⟩
  have hi := hcells i
  rw [cellAt_update] at hi
  by_cases hpos : x + d.1 * i = (c : Int) ∧ y + d.2 * i = (r : Int)
  · rw [if_pos hpos] at hi
    exact absurd (Option.some.inj hi).symm hp
  · rwa [if_neg hpos] at hi

theorem checkWinner_update {b : Board} {c : Fin 7} {r : Fin 6}
    {v p : Color} (hp : p ≠ v)
    (h : checkWinner (updateBoard b c r (some v)) p = true) :
    checkWinner b p = true :=
  (checkWinner_iff b p).mpr
    (hasFour_update hp ((checkWinner_iff _ p).mp h))

/-- States produced by legal play: the initial state, and placements made
only while the game is not over (the calling layer gates every placement
on `!isGameOver`). -/
inductive LegalReach : GameState → Prop
  | init : LegalReach createInitialState
  | step {s : GameState} (c : Fin 7) :
      LegalReach s → s.isGameOver = false → LegalReach (placePiece s c)

/-- The data-model invariant of the spec: `isGameOver` iff a
four-in-a-row exists or the board is full; `winner` is non-null only for
a player with a four-in-a-row, and that player (having just moved) is not
the player now to move. -/
def StateInvariant (s : GameState) : Prop :=
  s.isGameOver = (checkWinner s.board .red || checkWinner s.board .yellow
      || isBoardFull s.board) ∧
  ∀ p, s.winner = some p →
    checkWinner s.board p = true ∧ p = other s.currentPlayer

theorem or_of_colors (f : Color → Bool) (p : Color) :
    (f .red || f .yellow) = (f p || f (other p)) := by
  cases p
  · rfl
  · exact Bool.or_comm _ _

/-- **C2** (amended).  Every state produced by legal play — placements
applied only while the game is not over — satisfies the data-model
invariant. -/
theorem claim_C2_invariant (s : GameState) (h : LegalReach s) :
    StateInvariant s := by
  induction h with
  | init =>
    refine ⟨by decide, fun p hp => ?_⟩
    simp [createInitialState] at hp
  | @step s c _ hnotover ih =>
    rcases hrow : lowestEmptyRow s.board c with _ | r
    · rw [placePiece_of_full ((lowestEmptyRow_eq_none_iff s.board c).mp hrow)]
      exact ih
    · have hgo := ih.1
      have h3 : checkWinner s.board .red = false ∧
          checkWinner s.board .yellow = false ∧
          isBoardFull s.board = false := by
        rw [hnotover] at hgo
        have h := hgo.symm
        simp only [Bool.or_eq_false_iff] at h
        exact ⟨h.1.1, h.1.2, h.2⟩
      have hall : ∀ p, checkWinner s.board p = false := by
        intro p; cases p
        · exact h3.1
        · exact h3.2.1
      rw [StateInvariant, placePiece_eq hrow]
      dsimp only
      set cur := s.currentPlayer with hcur
      set nb := updateBoard s.board c r (some cur) with hnb
      have hother : checkWinner nb (other cur) = false := by
        cases hcw : checkWinner nb (other cur) with
        | false => rfl
        | true =>
          have hupd := checkWinner_update (other_ne cur) hcw
          rw [hall] at hupd
          exact Bool.noConfusion hupd
      refine ⟨?_, ?_⟩
      · rw [or_of_colors (checkWinner nb) cur, hother, Bool.or_false]
        by_cases hw : checkWinner nb cur = true
        · rw [if_pos hw, hw]
          rfl
        · rw [if_neg hw, Bool.eq_false_iff.mpr hw]
          rfl
      · intro p hp
        by_cases hw : checkWinner nb cur = true
        · rw [if_pos hw] at hp
          obtain rfl := Option.some.inj hp
          refine ⟨hw, ?_⟩
          exact (other_other cur).symm
        · rw [if_neg hw] at hp
          exact Option.noConfusion hp

/-- **C2** is false as stated: `placePiece` does not gate on
`isGameOver`, so one further placement on a finished game clears the
winner and un-ends it even though red's four-in-a-row is still on the
board. -/
theorem claim_C2_counterexample :
    (placePiece wonState 5).isGameOver = false ∧
    checkWinner (placePiece wonState 5).board Color.red = true := by
  decide

theorem claim_C2_witness : StateInvariant createInitialState :=
  claim_C2_invariant createInitialState LegalReach.init

/-! ### C4: behaviour when no legal move exists -/

/-- A (structurally valid) state whose board is completely full. -/
def fullRedState : GameState :=
  { board := fun _ _ => some .red
    currentPlayer := .yellow
    winner := some .red
    isGameOver := true }

/-- With no valid column, `getBestMove` falls through to its initial
`bestColumn = validColumns[0]`, which is `undefined` (`none`). -/
theorem getBestMove_of_no_columns {s : GameState}
    (h : getValidColumns s.board = []) : getBestMove s = none := by
  unfold getBestMove
  rw [h]
  simp [orderColumns]

/-- **C4** is false as stated: a finished game with playable columns
returns a move for every quality (here `medium` plays yellow's winning
column 4), and on a full board quality `best` returns `undefined`
(embedded: `Except.ok none`) instead of failing. -/
theorem claim_C4_counterexample :
    (wonState.isGameOver = true ∧
      getComputerMove wonState .medium 0 = .ok (some 4)) ∧
    (getValidColumns fullRedState.board = [] ∧
      getComputerMove fullRedState .best 0 = .ok none) := by
  refine ⟨⟨by decide, by rfl⟩, by decide, ?_⟩
  show Except.ok (getBestMove fullRedState) = Except.ok none
  rw [getBestMove_of_no_columns (by decide)]

/-- **C4** (amended).  The "No valid columns available" error is thrown
exactly by `getRandomColumn`, hence only for qualities `bad` and
`medium`, and only when every column's top cell is occupied —
`isGameOver` alone never triggers it; in the same situation quality
`best` silently yields no column (`undefined`). -/
theorem claim_C4_noLegalMove (s : GameState) (rand : Nat)
    (h : getValidColumns s.board = []) :
    getComputerMove s .bad rand = .error "No valid columns available" ∧
    getComputerMove s .medium rand = .error "No valid columns available" ∧
    getComputerMove s .best rand = .ok none := by
  refine ⟨?_, ?_, ?_⟩
  · show (getRandomColumn (getValidColumns s.board) rand).map some = _
    rw [h]
    rw [getRandomColumn, dif_pos rfl]
    rfl
  · show (match (getValidColumns s.board).find?
        (fun col => (placePiece s col).winner = some s.currentPlayer) with
      | some col => Except.ok (some col)
      | none =>
        match (getValidColumns s.board).find?
          (fun col =>
            (placePiece { s with currentPlayer := other s.currentPlayer }
              col).winner = some (other s.currentPlayer)) with
        | some col => Except.ok (some col)
        | none =>
          (getRandomColumn (getValidColumns s.board) rand).map some)
      = Except.error "No valid columns available"
    rw [h]
    show (getRandomColumn ([] : List (Fin 7)) rand).map some = _
    rw [getRandomColumn, dif_pos rfl]
    rfl
  · show Except.ok (getBestMove s) = _
    rw [getBestMove_of_no_columns h]

theorem claim_C4_witness :
    getValidColumns fullRedState.board = [] ∧
    getComputerMove fullRedState .bad 0
      = .error "No valid columns available" ∧
    getComputerMove fullRedState .medium 0
      = .error "No valid columns available" ∧
    getComputerMove fullRedState .best 0 = .ok none :=
  ⟨by decide, claim_C4_noLegalMove fullRedState 0 (by decide)⟩

/-! ### C5: the `medium` strategy -/

theorem pairwise_lt_validColumns (b : Board) :
    (getValidColumns b).Pairwise (· < ·) :=
  List.Pairwise.filter _ (by decide : (List.finRange 7).Pairwise (· < ·))

/-- On a strictly ascending list, `find?` returns the least satisfying
element. -/
theorem sorted_find?_least {l : List (Fin 7)} (hl : l.Pairwise (· < ·))
    {p : Fin 7 → Bool} {a : Fin 7} (ha : a ∈ l) (hpa : p a = true)
    (hmin : ∀ x ∈ l, p x = true → a ≤ x) : l.find? p = some a := by
  induction l with
  | nil => simp at ha
  | cons x t ih =>
    rw [List.find?_cons]
    rcases List.mem_cons.mp ha with rfl | hat
    · rw [hpa]
    · cases hpx : p x with
      | true =>
        have h1 := hmin x (List.mem_cons_self _ _) hpx
        have h2 := (List.pairwise_cons.mp hl).1 a hat
        omega
      | false =>
        exact ih (List.Pairwise.of_cons hl) hat
          fun y hy hpy => hmin y (List.mem_cons_of_mem _ hy) hpy

/-- **C5**.  For a live state with a legal move, `medium` plays the
lowest-index legal column that immediately wins; otherwise the
lowest-index legal column that blocks the opponent's immediate win
(simulated by swapping the current player); otherwise the random pick
over the legal columns (embedded as index `rand mod length`). -/
theorem claim_C5_medium (s : GameState) (rand : Nat)
    (_hover : s.isGameOver = false)
    (_hvalid : getValidColumns s.board ≠ []) :
    (∀ c ∈ getValidColumns s.board,
      (placePiece s c).winner = some s.currentPlayer →
      (∀ c' ∈ getValidColumns s.board,
        (placePiece s c').winner = some s.currentPlayer → c ≤ c') →
      getComputerMove s .medium rand = .ok (some c)) ∧
    ((∀ c ∈ getValidColumns s.board,
        (placePiece s c).winner ≠ some s.currentPlayer) →
      ∀ c ∈ getValidColumns s.board,
        (placePiece { s with currentPlayer := other s.currentPlayer } c).winner
          = some (other s.currentPlayer) →
        (∀ c' ∈ getValidColumns s.board,
          (placePiece { s with currentPlayer := other s.currentPlayer } c').winner
            = some (other s.currentPlayer) → c ≤ c') →
        getComputerMove s .medium rand = .ok (some c)) ∧
    ((∀ c ∈ getValidColumns s.board,
        (placePiece s c).winner ≠ some s.currentPlayer ∧
        (placePiece { s with currentPlayer := other s.currentPlayer } c).winner
          ≠ some (other s.currentPlayer)) →
      ∃ c, getComputerMove s .medium rand = .ok (some c) ∧
        (getValidColumns s.board)[rand % (getValidColumns s.board).length]?
          = some c) := by
  have hpw := pairwise_lt_validColumns s.board
  refine ⟨?_, ?_, ?_⟩
  · intro c hc hwin hleast
    have hfind : (getValidColumns s.board).find?
        (fun col => (placePiece s col).winner = some s.currentPlayer)
        = some c :=
      sorted_find?_least hpw hc (decide_eq_true hwin)
        fun y hy hpy => hleast y hy (of_decide_eq_true hpy)
    show (match (getValidColumns s.board).find?
        (fun col => (placePiece s col).winner = some s.currentPlayer) with
      | some col => Except.ok (some col)
      | none => _) = Except.ok (some c)
    rw [hfind]
  · intro hnowin c hc hblock hleast
    have hfind1 : (getValidColumns s.board).find?
        (fun col => (placePiece s col).winner = some s.currentPlayer)
        = none :=
      List.find?_eq_none.mpr fun x hx =>
        by simpa using hnowin x hx
    have hfind2 : (getValidColumns s.board).find?
        (fun col =>
          (placePiece { s with currentPlayer := other s.currentPlayer } col).winner
            = some (other s.currentPlayer)) = some c :=
      sorted_find?_least hpw hc (decide_eq_true hblock)
        fun y hy hpy => hleast y hy (of_decide_eq_true hpy)
    show (match (getValidColumns s.board).find?
        (fun col => (placePiece s col).winner = some s.currentPlayer) with
      | some col => Except.ok (some col)
      | none =>
        match (getValidColumns s.board).find?
          (fun col =>
            (placePiece { s with currentPlayer := other s.currentPlayer }
              col).winner = some (other s.currentPlayer)) with
        | some col => Except.ok (some col)
        | none =>
          (getRandomColumn (getValidColumns s.board) rand).map some)
      = Except.ok (some c)
    rw [hfind1, hfind2]
  · intro hneither
    have hfind1 : (getValidColumns s.board).find?
        (fun col => (placePiece s col).winner = some s.currentPlayer)
        = none :=
      List.find?_eq_none.mpr fun x hx => by simpa using (hneither x hx).1
    have hfind2 : (getValidColumns s.board).find?
        (fun col =>
          (placePiece { s with currentPlayer := other s.currentPlayer } col).winner
            = some (other s.currentPlayer)) = none :=
      List.find?_eq_none.mpr fun x hx => by simpa using (hneither x hx).2
    have hlen : rand % (getValidColumns s.board).length
        < (getValidColumns s.board).length := by
      apply Nat.mod_lt
      cases hl : getValidColumns s.board with
      | nil => exact absurd hl _hvalid
      | cons a l => rw [hl] at hl ⊢; exact Nat.succ_pos _
    refine ⟨(getValidColumns s.board).get
      ⟨rand % (getValidColumns s.board).length, hlen⟩, ?_, ?_⟩
    · show (match (getValidColumns s.board).find?
          (fun col => (placePiece s col).winner = some s.currentPlayer) with
        | some col => Except.ok (some col)
        | none =>
          match (getValidColumns s.board).find?
            (fun col =>
              (placePiece { s with currentPlayer := other s.currentPlayer }
                col).winner = some (other s.currentPlayer)) with
          | some col => Except.ok (some col)
          | none =>
            (getRandomColumn (getValidColumns s.board) rand).map some)
        = _
      rw [hfind1, hfind2]
      unfold getRandomColumn
      rw [dif_neg _hvalid]
      rfl
    · exact List.getElem?_eq_getElem hlen

theorem claim_C5_witness :
    ∃ c, getComputerMove createInitialState .medium 0 = .ok (some c) ∧
      (getValidColumns createInitialState.board)[0 %
        (getValidColumns createInitialState.board).length]? = some c :=
  (claim_C5_medium createInitialState 0 (by decide) (by decide)).2.2
    (by decide)

/-! ### C9: a legal move is always returned when one exists -/

/-- A board whose row-0 (top) cells are all occupied while every other
cell is empty: every column still has empty cells, but none is playable
by `getValidColumns`'s test. -/
def cappedState : GameState :=
  { board := fun _ r => if r = 0 then some Color.red else none
    currentPlayer := .yellow
    winner := none
    isGameOver := false }

/-- **C9** is false as stated over arbitrary states: on a board whose
columns all have occupied top cells but empty cells below, the engine
throws instead of returning a column. -/
theorem claim_C9_counterexample :
    cappedState.board 0 5 = none ∧
    getComputerMove cappedState .bad 0
      = .error "No valid columns available" :=
  ⟨rfl, rfl⟩

theorem foldl_select_mem (g : Fin 7 → Score) (V : List (Fin 7)) :
    ∀ (l : List (Fin 7)) (acc : Score × Option (Fin 7)),
      (∃ c, acc.2 = some c ∧ c ∈ V) → (∀ x ∈ l, x ∈ V) →
      ∃ c, (l.foldl
          (fun acc col => if acc.1 < g col then (g col, some col) else acc)
          acc).2 = some c ∧ c ∈ V := by
  intro l
  induction l with
  | nil => exact fun acc hacc _ => hacc
  | cons x t ih =>
    intro acc hacc hsub
    rw [List.foldl_cons]
    refine ih _ ?_ fun y hy => hsub y (List.mem_cons_of_mem _ hy)
    by_cases hc : acc.1 < g x
    · rw [if_pos hc]
      exact ⟨x, rfl, hsub x (List.mem_cons_self _ _)⟩
    · rw [if_neg hc]
      exact hacc

theorem getBestMove_mem {s : GameState}
    (h : getValidColumns s.board ≠ []) :
    ∃ c, getBestMove s = some c ∧ c ∈ getValidColumns s.board := by
  obtain ⟨a, t, hl⟩ := List.exists_cons_of_ne_nil h
  refine foldl_select_mem
    (fun col => minimax 5 (placePiece s col) ⊥ ⊤ false s.currentPlayer
      (other s.currentPlayer))
    (getValidColumns s.board) (orderColumns (getValidColumns s.board))
    (⊥, (getValidColumns s.board).head?) ⟨a, ?_, ?_⟩ ?_
  · show (getValidColumns s.board).head? = some a
    rw [hl]
    rfl
  · rw [hl]
    exact List.mem_cons_self _ _
  · intro x hx
    exact List.mem_mergeSort.mp hx

/-- **C9** (amended).  Whenever at least one column is playable (its top
cell is empty — which for gravity-consistent boards is exactly "has an
empty cell"), every quality returns a playable column and the error
branch is unreachable. -/
theorem claim_C9_legal_move (s : GameState) (q : Quality) (rand : Nat)
    (h : getValidColumns s.board ≠ []) :
    ∃ c, getComputerMove s q rand = .ok (some c) ∧
      c ∈ getValidColumns s.board := by
  have hrandom : ∃ c,
      (getRandomColumn (getValidColumns s.board) rand).map some
        = .ok (some c) ∧ c ∈ getValidColumns s.board := by
    unfold getRandomColumn
    rw [dif_neg h]
    exact ⟨_, rfl, List.get_mem _ _ _⟩
  cases q with
  | bad => exact hrandom
  | best =>
    obtain ⟨c, hc, hmem⟩ := getBestMove_mem h
    refine ⟨c, ?_, hmem⟩
    show Except.ok (getBestMove s) = _
    rw [hc]
  | medium =>
    show ∃ c, (match (getValidColumns s.board).find?
        (fun col => (placePiece s col).winner = some s.currentPlayer) with
      | some col => Except.ok (some col)
      | none =>
        match (getValidColumns s.board).find?
          (fun col =>
            (placePiece { s with currentPlayer := other s.currentPlayer }
              col).winner = some (other s.currentPlayer)) with
        | some col => Except.ok (some col)
        | none =>
          (getRandomColumn (getValidColumns s.board) rand).map some)
      = Except.ok (some c) ∧ c ∈ getValidColumns s.board
    rcases hf1 : (getValidColumns s.board).find?
        (fun col => (placePiece s col).winner = some s.currentPlayer)
      with _ | c1
    · rcases hf2 : (getValidColumns s.board).find?
          (fun col =>
            (placePiece { s with currentPlayer := other s.currentPlayer }
              col).winner = some (other s.currentPlayer)) with _ | c2
      · simpa using hrandom
      · exact ⟨c2, rfl, List.mem_of_find?_eq_some hf2⟩
    · exact ⟨c1, rfl, List.mem_of_find?_eq_some hf1⟩

theorem claim_C9_witness :
    ∃ c, getComputerMove createInitialState .bad 3 = .ok (some c) ∧
      c ∈ getValidColumns createInitialState.board :=
  claim_C9_legal_move createInitialState .bad 3 (by decide)

/-! ### C7: the static evaluation -/

/-- All four positions of the window starting at `(c, r)` with step
`(dc, dr)` lie on the board. -/
def windowInBounds (c r : Nat) (dc dr : Int) : Prop :=
  ∀ i ∈ List.range 4,
    0 ≤ (c : Int) + (i : Int) * dc ∧ (c : Int) + (i : Int) * dc < 7 ∧
      0 ≤ (r : Int) + (i : Int) * dr ∧ (r : Int) + (i : Int) * dr < 6

instance (c r : Nat) (dc dr : Int) : Decidable (windowInBounds c r dc dr) :=
  List.decidableBAll _ _

/-- The 4 cells of a fully in-bounds window. -/
def window4 (b : Board) (c r : Nat) (dc dr : Int) : List Cell :=
  (List.range 4).map fun (i : Nat) =>
    cellAt b ((c : Int) + (i : Int) * dc) ((r : Int) + (i : Int) * dr)

/-- The window score exactly as the specification words it: one flat
case list, `0` for every window containing both colors (and for the
unlisted sparse windows). -/
def windowScoreSpec (w : List Cell) (p : Color) : ℤ :=
  if w.count (some p) = 4 then 100000
  else if w.count (some p) = 3 ∧ w.count none = 1 then 100
  else if w.count (some p) = 2 ∧ w.count none = 2 then 10
  else if w.count (some (other p)) = 4 then -100000
  else if w.count (some (other p)) = 3 ∧ w.count none = 1 then -1000
  else if w.count (some (other p)) = 2 ∧ w.count none = 2 then -10
  else 0

/-- The evaluation as the specification words it: 6 per own piece in the
center column, plus the window scores of every window of 4 consecutive
in-bounds cells in each of the 4 directions. -/
def evaluateBoardSpec (b : Board) (p : Color) : ℤ :=
  6 * ((List.finRange 6).filter fun r => b 3 r = some p).length +
  (dirs.map fun d =>
    ((List.range 7).map fun c =>
      ((List.range 6).map fun r =>
        if windowInBounds c r d.1 d.2 then
          windowScoreSpec (window4 b c r d.1 d.2) p
        else 0).sum).sum).sum

theorem cell_count (w : List Cell) (p : Color) :
    w.count (some p) + w.count (some (other p)) + w.count none
      = w.length := by
  induction w with
  | nil => simp
  | cons a t ih =>
    cases p <;> rcases a with _ | (_ | _) <;>
      simp [List.count_cons, other] at ih ⊢ <;> omega

theorem evaluateWindow_eq_spec {w : List Cell} (p : Color)
    (hlen : w.length = 4) :
    evaluateWindow w p (other p) = windowScoreSpec w p := by
  have hsum := cell_count w p
  rw [hlen] at hsum
  simp only [evaluateWindow, windowScoreSpec]
  split_ifs <;> omega

theorem windowCells_of_inBounds {b : Board} {c r : Nat} {dc dr : Int}
    (h : windowInBounds c r dc dr) :
    windowCells b c r dc dr = window4 b c r dc dr := by
  have h0 := h 0 (by decide)
  have h1 := h 1 (by decide)
  have h2 := h 2 (by decide)
  have h3 := h 3 (by decide)
  unfold windowCells window4
  simp only [show List.range 4 = [0, 1, 2, 3] from rfl,
    List.filterMap_cons, List.filterMap_nil, List.map_cons, List.map_nil]
  rw [if_pos h0, if_pos h1, if_pos h2, if_pos h3]

theorem length_filterMap_lt {α β : Type} (f : α → Option β) :
    ∀ (l : List α) (a : α), a ∈ l → f a = none →
      (l.filterMap f).length < l.length := by
  intro l
  induction l with
  | nil => intro a ha; simp at ha
  | cons x t ih =>
    intro a ha hfa
    rcases List.mem_cons.mp ha with rfl | hat
    · rw [List.filterMap_cons, hfa, List.length_cons]
      exact Nat.lt_succ_of_le (List.length_filterMap_le _ _)
    · rw [List.filterMap_cons, List.length_cons]
      cases hfx : f x with
      | none => exact Nat.lt_succ_of_lt (ih a hat hfa)
      | some b =>
        rw [List.length_cons]
        exact Nat.succ_lt_succ (ih a hat hfa)

theorem windowCells_length_ne {b : Board} {c r : Nat} {dc dr : Int}
    (h : ¬ windowInBounds c r dc dr) :
    (windowCells b c r dc dr).length ≠ 4 := by
  unfold windowInBounds at h
  obtain ⟨i, hig⟩ := not_forall.mp h
  obtain ⟨hi, hg⟩ := Classical.not_imp.mp hig
  have hlt : (windowCells b c r dc dr).length < (List.range 4).length := by
    unfold windowCells
    exact length_filterMap_lt _ _ i hi (by rw [if_neg hg])
  simp only [List.length_range] at hlt
  omega

theorem scoreDirection_eq_spec (b : Board) (p : Color) (dc dr : Int) :
    scoreDirection b p (other p) dc dr =
      ((List.range 7).map fun c =>
        ((List.range 6).map fun r =>
          if windowInBounds c r dc dr then
            windowScoreSpec (window4 b c r dc dr) p
          else 0).sum).sum := by
  unfold scoreDirection
  congr 1
  refine List.map_congr_left fun c _ => ?_
  congr 1
  refine List.map_congr_left fun r _ => ?_
  show (if (windowCells b c r dc dr).length = 4 then
      evaluateWindow (windowCells b c r dc dr) p (other p) else 0) = _
  by_cases h : windowInBounds c r dc dr
  · rw [if_pos h, windowCells_of_inBounds h,
      if_pos (by simp [window4] : (window4 b c r dc dr).length = 4)]
    exact evaluateWindow_eq_spec p (by simp [window4])
  · rw [if_neg (windowCells_length_ne h), if_neg h]

/-- **C7**.  The static evaluation from `playerColor`'s perspective
(opponent being the other color) equals the specification's formula:
6 per own center-column piece plus the weighted window scores
(+100000/+100/+10 own, −100000/−1000/−10 opponent, 0 mixed) over all
in-bounds 4-windows of the 4 directions. -/
theorem claim_C7_evaluation (b : Board) (p : Color) :
    evaluateBoard b p (other p) = evaluateBoardSpec b p := by
  unfold evaluateBoard evaluateBoardSpec
  rw [scoreDirection_eq_spec b p 1 0, scoreDirection_eq_spec b p 0 1,
    scoreDirection_eq_spec b p 1 1, scoreDirection_eq_spec b p 1 (-1)]
  simp only [dirs, List.map_cons, List.map_nil, List.sum_cons,
    List.sum_nil]
  ring

/-! ### C6: alpha-beta pruning computes the plain minimax value -/

/-- The specification's reference search: plain minimax without
alpha-beta, same depth limit, same terminal evaluation and same
center-first column ordering. -/
def minimaxNP : Nat → GameState → Bool → Color → Color → Score
  | 0, s, _, p, o => Score.ofInt (evaluateBoard s.board p o)
  | d + 1, s, isMaximizing, p, o =>
    if s.isGameOver then Score.ofInt (evaluateBoard s.board p o)
    else
      let orderedColumns := orderColumns (getValidColumns s.board)
      if isMaximizing then
        orderedColumns.foldl
          (fun acc c => max acc (minimaxNP d (placePiece s c) false p o)) ⊥
      else
        orderedColumns.foldl
          (fun acc c => min acc (minimaxNP d (placePiece s c) true p o)) ⊤

/-- The specification's root selection: among the center-ordered legal
columns, the first one whose (unpruned) depth-5 minimax score is
strictly greatest, starting from `validColumns[0]`. -/
def getBestMoveNP (s : GameState) : Option (Fin 7) :=
  let opponentColor := other s.currentPlayer
  let validColumns := getValidColumns s.board
  let orderedColumns := orderColumns validColumns
  (orderedColumns.foldl
    (fun (acc : Score × Option (Fin 7)) col =>
      let score := minimaxNP 5 (placePiece s col) false s.currentPlayer
        opponentColor
      if acc.1 < score then (score, some col) else acc)
    (⊥, validColumns.head?)).2

theorem minimax_succ (d : Nat) (s : GameState) (α β : Score)
    (isMax : Bool) (p o : Color) :
    minimax (d + 1) s α β isMax p o =
      if s.isGameOver then Score.ofInt (evaluateBoard s.board p o)
      else if isMax then
        abMaxLoop (fun α' β' s' => minimax d s' α' β' false p o) s
          (orderColumns (getValidColumns s.board)) ⊥ α β
      else
        abMinLoop (fun α' β' s' => minimax d s' α' β' true p o) s
          (orderColumns (getValidColumns s.board)) ⊤ α β := by
  rw [minimax]

theorem minimaxNP_succ (d : Nat) (s : GameState) (isMax : Bool)
    (p o : Color) :
    minimaxNP (d + 1) s isMax p o =
      if s.isGameOver then Score.ofInt (evaluateBoard s.board p o)
      else if isMax then
        (orderColumns (getValidColumns s.board)).foldl
          (fun acc c => max acc (minimaxNP d (placePiece s c) false p o)) ⊥
      else
        (orderColumns (getValidColumns s.board)).foldl
          (fun acc c => min acc (minimaxNP d (placePiece s c) true p o)) ⊤ := by
  rw [minimaxNP]

theorem le_foldl_max (g : Fin 7 → Score) :
    ∀ (l : List (Fin 7)) (v : Score),
      v ≤ l.foldl (fun a c => max a (g c)) v := by
  intro l
  induction l with
  | nil => exact fun v => le_rfl
  | cons c t ih =>
    intro v
    rw [List.foldl_cons]
    exact le_trans (le_max_left v (g c)) (ih (max v (g c)))

theorem foldl_max_shift (g : Fin 7 → Score) :
    ∀ (l : List (Fin 7)) (v e : Score),
      l.foldl (fun a c => max a (g c)) (max v e)
        = max e (l.foldl (fun a c => max a (g c)) v) := by
  intro l
  induction l with
  | nil => exact fun v e => max_comm v e
  | cons c t ih =>
    intro v e
    rw [List.foldl_cons, List.foldl_cons, sup_right_comm v e (g c), ih]

theorem foldl_min_le (g : Fin 7 → Score) :
    ∀ (l : List (Fin 7)) (v : Score),
      l.foldl (fun a c => min a (g c)) v ≤ v := by
  intro l
  induction l with
  | nil => exact fun v => le_rfl
  | cons c t ih =>
    intro v
    rw [List.foldl_cons]
    exact le_trans (ih (min v (g c))) (min_le_left v (g c))

theorem foldl_min_shift (g : Fin 7 → Score) :
    ∀ (l : List (Fin 7)) (v e : Score),
      l.foldl (fun a c => min a (g c)) (min v e)
        = min e (l.foldl (fun a c => min a (g c)) v) := by
  intro l
  induction l with
  | nil => exact fun v e => min_comm v e
  | cons c t ih =>
    intro v e
    rw [List.foldl_cons, List.foldl_cons, min_right_comm v e (g c), ih]

/-- Fail-soft correctness of the maximizing loop: writing `M` for the
true (unpruned) running maximum, the loop's result `r` satisfies
`r ≤ α → M ≤ r`, `β ≤ r → r ≤ M`, and `α < r < β → r = M`, provided the
recursive search `f` satisfies the same contract against the true value
function `g`. -/
theorem abMax_spec (f : Score → Score → GameState → Score)
    (g : GameState → Score) (s : GameState) (β : Score)
    (hf : ∀ α' s', α' < β →
      (f α' β s' ≤ α' → g s' ≤ f α' β s') ∧
      (β ≤ f α' β s' → f α' β s' ≤ g s') ∧
      (α' < f α' β s' → f α' β s' < β → f α' β s' = g s')) :
    ∀ (cs : List (Fin 7)) (v α : Score), v ≤ α → α < β →
      (abMaxLoop f s cs v α β ≤ α →
        cs.foldl (fun a c => max a (g (placePiece s c))) v
          ≤ abMaxLoop f s cs v α β) ∧
      (β ≤ abMaxLoop f s cs v α β →
        abMaxLoop f s cs v α β
          ≤ cs.foldl (fun a c => max a (g (placePiece s c))) v) ∧
      (α < abMaxLoop f s cs v α β → abMaxLoop f s cs v α β < β →
        abMaxLoop f s cs v α β
          = cs.foldl (fun a c => max a (g (placePiece s c))) v) := by
  intro cs
  induction cs with
  | nil =>
    intro v α _ _
    exact ⟨fun _ => le_rfl, fun _ => le_rfl, fun _ _ => rfl⟩
  | cons c t ih =>
    intro v α hva hab
    have hfc := hf α (placePiece s c) hab
    set e := f α β (placePiece s c) with he
    set m := g (placePiece s c) with hm
    have hstep : abMaxLoop f s (c :: t) v α β =
        if β ≤ max α e then max v e
        else abMaxLoop f s t (max v e) (max α e) β := rfl
    have hfold : (c :: t).foldl (fun a x => max a (g (placePiece s x))) v
        = t.foldl (fun a x => max a (g (placePiece s x))) (max v m) := rfl
    rw [hstep, hfold]
    by_cases hcut : β ≤ max α e
    · rw [if_pos hcut]
      have heβ : β ≤ e := by
        rcases max_cases α e with ⟨hmx, _⟩ | ⟨hmx, _⟩
        · rw [hmx] at hcut
          exact absurd (lt_of_lt_of_le hab hcut) (lt_irrefl α)
        · rwa [hmx] at hcut
      have hve : max v e = e := max_eq_right (hva.trans (hab.le.trans heβ))
      rw [hve]
      refine ⟨fun h => absurd (lt_of_lt_of_le hab (heβ.trans h)) (lt_irrefl α),
        fun _ => ?_,
        fun _ h2 => absurd (lt_of_le_of_lt heβ h2) (lt_irrefl β)⟩
      calc e ≤ m := hfc.2.1 heβ
        _ ≤ max v m := le_max_right _ _
        _ ≤ t.foldl (fun a x => max a (g (placePiece s x))) (max v m) :=
          le_foldl_max _ t _
    · rw [if_neg hcut]
      have hα'β : max α e < β := not_le.mp hcut
      have heβ : e < β := lt_of_le_of_lt (le_max_right α e) hα'β
      by_cases hle : e ≤ α
      · have hme : m ≤ e := hfc.1 hle
        have hαe : max α e = α := max_eq_left hle
        have IH := ih (max v e) α
          ((max_le_max hva le_rfl).trans hαe.le) hab
        rw [foldl_max_shift (fun x => g (placePiece s x)) t v e] at IH
        rw [foldl_max_shift (fun x => g (placePiece s x)) t v m, hαe]
        set T := t.foldl (fun a x => max a (g (placePiece s x))) v with hT
        set r := abMaxLoop f s t (max v e) α β with hr
        refine ⟨fun h => ?_, fun h => ?_, fun h1 h2 => ?_⟩
        · exact le_trans (max_le_max hme le_rfl) (IH.1 h)
        · have hrF := IH.2.1 h
          rcases le_total e T with het | hte
          · rw [max_eq_right het] at hrF
            exact hrF.trans (le_max_right m T)
          · rw [max_eq_left hte] at hrF
            exact absurd (lt_of_le_of_lt (h.trans hrF) heβ) (lt_irrefl β)
        · have hrF := IH.2.2 h1 h2
          rcases le_total e T with het | hte
          · have hrT : r = T := by rw [max_eq_right het] at hrF; exact hrF
            have hmT : m ≤ T := (hme.trans hle).trans (hrT ▸ h1).le
            rw [max_eq_right hmT]
            exact hrT
          · have hre : r = e := hrF.trans (max_eq_left hte)
            exact absurd (hre ▸ h1) (not_lt.mpr hle)
      · push_neg at hle
        have hem : e = m := hfc.2.2 hle heβ
        have hαe : max α e = e := max_eq_right hle.le
        have IH := ih (max v e) e
          ((max_le_max hva le_rfl).trans hαe.le) (hαe ▸ hα'β)
        rw [hem] at IH
        rw [hαe, hem]
        have hlem : α < m := hem ▸ hle
        refine ⟨fun h => IH.1 (h.trans hlem.le), IH.2.1, fun h1 h2 => ?_⟩
        by_cases hre : m < abMaxLoop f s t (max v m) m β
        · exact IH.2.2 hre h2
        · push_neg at hre
          refine le_antisymm ?_ (IH.1 hre)
          calc abMaxLoop f s t (max v m) m β ≤ m := hre
            _ ≤ max v m := le_max_right _ _
            _ ≤ t.foldl (fun a x => max a (g (placePiece s x))) (max v m) :=
              le_foldl_max _ t _

/-- Fail-soft correctness of the minimizing loop, dual to
`abMax_spec`. -/
theorem abMin_spec (f : Score → Score → GameState → Score)
    (g : GameState → Score) (s : GameState) (α : Score)
    (hf : ∀ β' s', α < β' →
      (f α β' s' ≤ α → g s' ≤ f α β' s') ∧
      (β' ≤ f α β' s' → f α β' s' ≤ g s') ∧
      (α < f α β' s' → f α β' s' < β' → f α β' s' = g s')) :
    ∀ (cs : List (Fin 7)) (v β : Score), β ≤ v → α < β →
      (abMinLoop f s cs v α β ≤ α →
        cs.foldl (fun a c => min a (g (placePiece s c))) v
          ≤ abMinLoop f s cs v α β) ∧
      (β ≤ abMinLoop f s cs v α β →
        abMinLoop f s cs v α β
          ≤ cs.foldl (fun a c => min a (g (placePiece s c))) v) ∧
      (α < abMinLoop f s cs v α β → abMinLoop f s cs v α β < β →
        abMinLoop f s cs v α β
          = cs.foldl (fun a c => min a (g (placePiece s c))) v) := by
  intro cs
  induction cs with
  | nil =>
    intro v β _ _
    exact ⟨fun _ => le_rfl, fun _ => le_rfl, fun _ _ => rfl⟩
  | cons c t ih =>
    intro v β hβv hab
    have hfc := hf β (placePiece s c) hab
    set e := f α β (placePiece s c) with he
    set m := g (placePiece s c) with hm
    have hstep : abMinLoop f s (c :: t) v α β =
        if min β e ≤ α then min v e
        else abMinLoop f s t (min v e) α (min β e) := rfl
    have hfold : (c :: t).foldl (fun a x => min a (g (placePiece s x))) v
        = t.foldl (fun a x => min a (g (placePiece s x))) (min v m) := rfl
    rw [hstep, hfold]
    by_cases hcut : min β e ≤ α
    · rw [if_pos hcut]
      have heα : e ≤ α := by
        rcases min_cases β e with ⟨hmx, _⟩ | ⟨hmx, _⟩
        · rw [hmx] at hcut
          exact absurd (lt_of_le_of_lt hcut hab) (lt_irrefl β)
        · rwa [hmx] at hcut
      have hve : min v e = e := min_eq_right ((heα.trans hab.le).trans hβv)
      rw [hve]
      refine ⟨fun _ => ?_,
        fun h => absurd (lt_of_le_of_lt (h.trans heα) hab) (lt_irrefl β),
        fun h1 _ => absurd (lt_of_lt_of_le h1 heα) (lt_irrefl α)⟩
      calc t.foldl (fun a x => min a (g (placePiece s x))) (min v m)
          ≤ min v m := foldl_min_le _ t _
        _ ≤ m := min_le_right _ _
        _ ≤ e := hfc.1 heα
    · rw [if_neg hcut]
      have hαβ' : α < min β e := not_le.mp hcut
      have hαe : α < e := lt_of_lt_of_le hαβ' (min_le_right β e)
      by_cases hle : β ≤ e
      · have hem : e ≤ m := hfc.2.1 hle
        have hβe : min β e = β := min_eq_left hle
        have IH := ih (min v e) β
          (hβe.ge.trans (min_le_min hβv le_rfl)) hab
        rw [foldl_min_shift (fun x => g (placePiece s x)) t v e] at IH
        rw [foldl_min_shift (fun x => g (placePiece s x)) t v m, hβe]
        set T := t.foldl (fun a x => min a (g (placePiece s x))) v with hT
        set r := abMinLoop f s t (min v e) α β with hr
        refine ⟨fun h => ?_, fun h => ?_, fun h1 h2 => ?_⟩
        · have hrF := IH.1 h
          rcases le_total e T with het | hte
          · rw [min_eq_left het] at hrF
            exact absurd (lt_of_le_of_lt (hle.trans (hrF.trans h)) hab)
              (lt_irrefl β)
          · rw [min_eq_right hte] at hrF
            exact (min_le_right m T).trans hrF
        · have hrF := IH.2.1 h
          have hrT : r ≤ T := hrF.trans (min_le_right e T)
          have hrm : r ≤ m := (hrF.trans (min_le_left e T)).trans hem
          exact le_min hrm hrT
        · have hrF := IH.2.2 h1 h2
          rcases le_total e T with het | hte
          · have hre : r = e := hrF.trans (min_eq_left het)
            exact absurd (hre ▸ h2) (not_lt.mpr hle)
          · have hrT : r = T := by rw [min_eq_right hte] at hrF; exact hrF
            have hTm : T ≤ m := ((hrT ▸ h2).le.trans hle).trans hem
            rw [min_eq_right hTm]
            exact hrT
      · push_neg at hle
        have hem : e = m := hfc.2.2 hαe hle
        have hβe : min β e = e := min_eq_right hle.le
        have IH := ih (min v e) e
          (hβe.ge.trans (min_le_min hβv le_rfl)) (hβe ▸ hαβ')
        rw [hem] at IH
        rw [hβe, hem]
        have hmβ : m < β := hem ▸ hle
        refine ⟨IH.1, fun h => IH.2.1 (hmβ.le.trans h), fun h1 h2 => ?_⟩
        by_cases hre : abMinLoop f s t (min v m) α m < m
        · exact IH.2.2 h1 hre
        · push_neg at hre
          refine le_antisymm (IH.2.1 hre) ?_
          calc t.foldl (fun a x => min a (g (placePiece s x))) (min v m)
              ≤ min v m := foldl_min_le _ t _
            _ ≤ m := min_le_right _ _
            _ ≤ abMinLoop f s t (min v m) α m := hre

theorem minimax_threePart (p o : Color) :
    ∀ (d : Nat) (s : GameState) (α β : Score) (isMax : Bool), α < β →
      (minimax d s α β isMax p o ≤ α →
        minimaxNP d s isMax p o ≤ minimax d s α β isMax p o) ∧
      (β ≤ minimax d s α β isMax p o →
        minimax d s α β isMax p o ≤ minimaxNP d s isMax p o) ∧
      (α < minimax d s α β isMax p o → minimax d s α β isMax p o < β →
        minimax d s α β isMax p o = minimaxNP d s isMax p o) := by
  intro d
  induction d with
  | zero =>
    intro s α β isMax _
    exact ⟨fun _ => le_rfl, fun _ => le_rfl, fun _ _ => rfl⟩
  | succ d ih =>
    intro s α β isMax hab
    rw [minimax_succ, minimaxNP_succ]
    by_cases hover : s.isGameOver = true
    · rw [if_pos hover, if_pos hover]
      exact ⟨fun _ => le_rfl, fun _ => le_rfl, fun _ _ => rfl⟩
    · rw [if_neg hover, if_neg hover]
      cases isMax
      · rw [if_neg Bool.false_ne_true, if_neg Bool.false_ne_true]
        exact abMin_spec (fun α' β' s' => minimax d s' α' β' true p o)
          (fun s' => minimaxNP d s' true p o) s α
          (fun β' s' h => ih s' α β' true h)
          (orderColumns (getValidColumns s.board)) ⊤ β le_top hab
      · rw [if_pos rfl, if_pos rfl]
        exact abMax_spec (fun α' β' s' => minimax d s' α' β' false p o)
          (fun s' => minimaxNP d s' false p o) s β
          (fun α' s' h => ih s' α' β false h)
          (orderColumns (getValidColumns s.board)) ⊥ α bot_le hab

theorem minimax_full_window (p o : Color) (d : Nat) (s : GameState)
    (isMax : Bool) :
    minimax d s ⊥ ⊤ isMax p o = minimaxNP d s isMax p o := by
  have h := minimax_threePart p o d s ⊥ ⊤ isMax
    (WithBot.bot_lt_coe (⊤ : WithTop ℤ))
  rcases le_or_lt (minimax d s ⊥ ⊤ isMax p o) ⊥ with hb | hb
  · rw [le_bot_iff.mp hb, le_bot_iff.mp ((h.1 hb).trans hb)]
  · rcases le_or_lt ⊤ (minimax d s ⊥ ⊤ isMax p o) with ht | ht
    · rw [top_le_iff.mp ht, top_le_iff.mp (ht.trans (h.2.1 ht))]
    · exact h.2.2 hb ht

theorem foldl_congr_fn {β : Type} (f g : β → Fin 7 → β)
    (l : List (Fin 7)) (b : β) (h : ∀ acc c, f acc c = g acc c) :
    l.foldl f b = l.foldl g b := by
  induction l generalizing b with
  | nil => rfl
  | cons x t ih => rw [List.foldl_cons, List.foldl_cons, h, ih]

theorem getBestMove_eq_NP (s : GameState) :
    getBestMove s = getBestMoveNP s := by
  unfold getBestMove getBestMoveNP
  have h : (orderColumns (getValidColumns s.board)).foldl
      (fun (acc : Score × Option (Fin 7)) col =>
        if acc.1 < minimax 5 (placePiece s col) ⊥ ⊤ false s.currentPlayer
            (other s.currentPlayer) then
          (minimax 5 (placePiece s col) ⊥ ⊤ false s.currentPlayer
            (other s.currentPlayer), some col)
        else acc)
      (⊥, (getValidColumns s.board).head?)
      = (orderColumns (getValidColumns s.board)).foldl
      (fun (acc : Score × Option (Fin 7)) col =>
        if acc.1 < minimaxNP 5 (placePiece s col) false s.currentPlayer
            (other s.currentPlayer) then
          (minimaxNP 5 (placePiece s col) false s.currentPlayer
            (other s.currentPlayer), some col)
        else acc)
      (⊥, (getValidColumns s.board).head?) := by
    refine foldl_congr_fn _ _ _ _ fun acc col => ?_
    rw [minimax_full_window s.currentPlayer (other s.currentPlayer) 5
      (placePiece s col) false]
  exact congrArg Prod.snd h

/-- **C6**.  Alpha-beta pruning is a pure optimization: the root search
of `getBestMove` (each root child searched with the full window) selects
the same column as the unpruned minimax selector with the same
center-first ordering and first-to-achieve-the-max tie-break, and for
every state and depth the alpha-beta value with window `(-∞, ∞)` equals
the plain minimax value. -/
theorem claim_C6_alphabeta_equiv :
    (∀ s, getBestMove s = getBestMoveNP s) ∧
    (∀ (d : Nat) (s : GameState) (isMax : Bool) (p o : Color),
      minimax d s ⊥ ⊤ isMax p o = minimaxNP d s isMax p o) :=
  ⟨getBestMove_eq_NP, fun d s isMax p o => minimax_full_window p o d s isMax⟩

/-! ### C10: determinism of the best quality -/

/-- **C10**.  The `best` path never consults the random source: the
result is independent of the random seed `rand` (and, the selector being
a pure function of the state, equal states yield equal moves). -/
theorem claim_C10_best_deterministic (s : GameState) (r1 r2 : Nat) :
    getComputerMove s .best r1 = getComputerMove s .best r2 := rfl

end ConnectFour
